import Mathlib

/-!
Verification of the audio capture / analysis pipeline of the portfolio site.

The development shallowly embeds the numeric core of the repository:

* `record3sPCM` (AudioRecord.tsx): chunk accumulation, concatenation and
  trimming to the exact target frame count, modelled by `fillChunks` /
  `concatTrim` over lists of rational amplitudes.
* The sampling / quantization demo (`SamplingCanvas` in AudioExplorer.tsx):
  nearest-neighbour resampling, clamping, symmetric quantization and
  reconstruction, modelled by `simulate` and friends over `ℚ`.
* The spectral path (`SpectrumCanvas`, `applyHann`, `fftComplex`,
  `nextPow2` in AudioExplorer.tsx), modelled over `ℝ` with JavaScript
  loops translated into folds.

JavaScript `Math.round` is round-half-up, `Math.floor`/`Math.ceil` are the
usual floor/ceil; machine floats are modelled by exact `ℚ`/`ℝ` arithmetic.
-/

namespace AudioPipeline

/-! ### Capture pipeline — AudioRecord.tsx, record3sPCM -/

/-- `targetFrames = Math.ceil(durationSec * sampleRate)` (AudioRecord.tsx line 56). -/
def targetFrames (d r : ℚ) : ℕ := (Int.ceil (d * r)).toNat

/-- `samples.set(xs, off)` on a typed array: overwrite `xs.length` entries of
`buf` starting at `off` (in-range in all uses, per the `copyCount` bound). -/
def writeAt (buf : List ℚ) (off : ℕ) (xs : List ℚ) : List ℚ :=
  buf.take off ++ xs ++ buf.drop (off + xs.length)

/-- The concatenation loop of `record3sPCM` (AudioRecord.tsx lines 69-75):
for each chunk `c`, `copyCount = Math.min(c.length, targetFrames - offset)`,
copy `c.subarray(0, copyCount)` at `offset`, advance, break once
`offset >= targetFrames`. -/
def fillChunks (buf : List ℚ) (off : ℕ) (chunks : List (List ℚ)) (target : ℕ) : List ℚ :=
  match chunks with
  | [] => buf
  | c :: rest =>
    let copyCount := min c.length (target - off)
    let buf2 := writeAt buf off (c.take copyCount)
    let off2 := off + copyCount
    if target ≤ off2 then buf2 else fillChunks buf2 off2 rest target

/-- `const samples = new Float32Array(targetFrames)` (zero-initialized) followed
by the concatenation loop (AudioRecord.tsx lines 68-75). -/
def concatTrim (chunks : List (List ℚ)) (target : ℕ) : List ℚ :=
  fillChunks (List.replicate target 0) 0 chunks target

/-! ### Sampling / quantization simulator — AudioExplorer.tsx, SamplingCanvas -/

/-- JavaScript `Math.round`: round half away from zero upward, i.e. `⌊q + 1/2⌋`. -/
def jsRound (q : ℚ) : ℤ := Int.floor (q + 1 / 2)

/-- `Math.max(-1, Math.min(1, v))` (AudioExplorer.tsx line 743). -/
def clamp1 (v : ℚ) : ℚ := max (-1) (min 1 v)

/-- `const maxInt = (1 << (bits - 1)) - 1` (AudioExplorer.tsx line 728). -/
def maxIntOf (bits : ℕ) : ℤ := 2 ^ (bits - 1) - 1

/-- `q = Math.round(clamp(v) * maxInt)` (AudioExplorer.tsx lines 743-744). -/
def quantCode (bits : ℕ) (v : ℚ) : ℤ := jsRound (clamp1 v * (maxIntOf bits : ℚ))

/-- `vq = q / maxInt` (AudioExplorer.tsx line 745). -/
def reconstruct (bits : ℕ) (q : ℤ) : ℚ := (q : ℚ) / (maxIntOf bits : ℚ)

/-- `srcIdx = Math.min(samples.length - 1, Math.round(i * sampleRate / targetRate))`
(AudioExplorer.tsx lines 739-742). -/
def srcIndex (len : ℕ) (sr tr : ℚ) (i : ℤ) : ℤ :=
  min ((len : ℤ) - 1) (jsRound ((i : ℚ) * sr / tr))

/-- One iteration of the sampling loop: the point `(t, vq)` produced for output
index `i` (AudioExplorer.tsx lines 738-745).  `toNat` matches the non-negative
index used by the array read (the index is never negative in the code's uses). -/
def samplePoint (samples : List ℚ) (sr tr : ℚ) (bits : ℕ) (i : ℤ) : ℚ × ℚ :=
  ((i : ℚ) / tr,
   reconstruct bits (quantCode bits (samples.getD (srcIndex samples.length sr tr i).toNat 0)))

/-- `iStart = Math.ceil(startTime * targetRate)` with `startTime = clampedStart / sampleRate`
(AudioExplorer.tsx lines 627, 729). -/
def iStartOf (cs : ℕ) (sr tr : ℚ) : ℤ := Int.ceil ((cs : ℚ) / sr * tr)

/-- `iEnd = Math.floor(endTimeSec * targetRate)` with `endTimeSec = endSample / sampleRate`
(AudioExplorer.tsx lines 628, 730). -/
def iEndOf (es : ℕ) (sr tr : ℚ) : ℤ := Int.floor ((es : ℚ) / sr * tr)

/-- The quantized trace: the loop `for (let i = iStart; i <= iEnd; i++)`
(AudioExplorer.tsx lines 737-759 and 764-779), one `(t, vq)` point per index. -/
def simulate (samples : List ℚ) (sr tr : ℚ) (bits : ℕ) (cs es : ℕ) : List (ℚ × ℚ) :=
  (List.range (iEndOf es sr tr - iStartOf cs sr tr + 1).toNat).map
    (fun k : ℕ => samplePoint samples sr tr bits (iStartOf cs sr tr + (k : ℤ)))

/-! ### Helper lemmas for the capture proof -/

theorem writeAt_in_range (written : List ℚ) (pad : List ℚ) (xs : List ℚ)
    (hlen : xs.length ≤ pad.length) :
    writeAt (written ++ pad) written.length xs = written ++ xs ++ pad.drop xs.length := by
  unfold writeAt
  rw [List.take_append_eq_append_take, List.take_length, Nat.sub_self, List.take_zero,
    List.append_nil, List.drop_append_eq_append_drop]
  have h1 : written.length ≤ written.length + xs.length := Nat.le_add_right _ _
  rw [List.drop_eq_nil_of_le h1, List.nil_append, Nat.add_sub_cancel_left, List.append_assoc]

theorem drop_replicate (m n : ℕ) (a : ℚ) :
    (List.replicate n a).drop m = List.replicate (n - m) a := by
  induction n generalizing m with
  | zero => simp
  | succ k ih =>
    cases m with
    | zero => simp
    | succ j => simpa [List.replicate_succ] using ih j

theorem fillChunks_spec (t : ℕ) (chunks : List (List ℚ)) :
    ∀ (written : List ℚ) (off : ℕ),
      written.length = off → off ≤ t →
      t ≤ off + (chunks.map List.length).sum →
      fillChunks (written ++ List.replicate (t - off) 0) off chunks t
        = written ++ chunks.join.take (t - off) := by
  induction chunks with
  | nil =>
    intro written off hw hle hsum
    simp only [List.map_nil, List.sum_nil, Nat.add_zero] at hsum
    have hoff : t = off := le_antisymm hsum hle
    subst hoff
    simp [fillChunks]
  | cons c rest ih =>
    intro written off hw hle hsum
    subst hw
    set off := written.length with hoffdef
    have hcc : min c.length (t - off) ≤ t - off := Nat.min_le_right _ _
    have hccc : min c.length (t - off) ≤ c.length := Nat.min_le_left _ _
    have hxslen : (c.take (min c.length (t - off))).length = min c.length (t - off) := by
      simp [List.length_take, Nat.min_eq_left hccc]
    have hwrite := writeAt_in_range written (List.replicate (t - off) 0)
      (c.take (min c.length (t - off))) (by simp [hxslen, hcc])
    rw [hxslen] at hwrite
    rw [drop_replicate] at hwrite
    show (if t ≤ off + min c.length (t - off) then
        writeAt (written ++ List.replicate (t - off) 0) off
          (c.take (min c.length (t - off)))
      else
        fillChunks (writeAt (written ++ List.replicate (t - off) 0) off
          (c.take (min c.length (t - off)))) (off + min c.length (t - off)) rest t)
      = written ++ (c ++ rest.join).take (t - off)
    by_cases hbr : t ≤ off + min c.length (t - off)
    · -- final chunk: copyCount = t - off, buffer is exactly filled
      have hmin : min c.length (t - off) = t - off := by omega
      rw [if_pos hbr]
      rw [hwrite, hmin, Nat.sub_self, List.replicate_zero, List.append_nil]
      have htc : t - off ≤ c.length := by omega
      rw [List.take_append_eq_append_take, Nat.sub_eq_zero_of_le htc, List.take_zero,
        List.append_nil]
    · -- whole chunk copied, recurse on the rest
      have hclt : c.length < t - off := by
        rcases Nat.le_total c.length (t - off) with h | h
        · rcases Nat.lt_or_ge c.length (t - off) with h2 | h2
          · exact h2
          · omega
        · exfalso; apply hbr; rw [Nat.min_eq_right h]; omega
      have hmin : min c.length (t - off) = c.length := Nat.min_eq_left (le_of_lt hclt)
      rw [if_neg hbr]
      rw [hwrite, hmin, List.take_of_length_le (le_refl _)]
      have hre : written ++ (c ++ List.replicate (t - off - c.length) 0)
          = (written ++ c) ++ List.replicate (t - (off + c.length)) 0 := by
        rw [Nat.sub_sub, List.append_assoc]
      rw [List.append_assoc, hre]
      have hw2 : (written ++ c).length = off + c.length := by
        simp [List.length_append]
      have hle2 : off + c.length ≤ t := by omega
      have hsum2 : t ≤ (off + c.length) + (rest.map List.length).sum := by
        simp only [List.map_cons, List.sum_cons] at hsum
        omega
      have hih := ih (written ++ c) (off + c.length) hw2 hle2 hsum2
      rw [hih]
      rw [List.take_append_eq_append_take, List.take_of_length_le (le_of_lt hclt),
        List.append_assoc, Nat.sub_sub]

theorem concatTrim_spec (chunks : List (List ℚ)) (t : ℕ)
    (h : t ≤ (chunks.map List.length).sum) :
    concatTrim chunks t = chunks.join.take t ∧ (concatTrim chunks t).length = t := by
  have hmain := fillChunks_spec t chunks [] 0 rfl (Nat.zero_le _) (by simpa using h)
  simp only [List.nil_append, Nat.sub_zero] at hmain
  have hq : concatTrim chunks t = chunks.join.take t := by
    unfold concatTrim
    exact hmain
  refine ⟨hq, ?_⟩
  rw [hq, List.length_take, List.length_join]
  omega

/-! ### Helper lemmas for quantization bounds -/

theorem maxIntOf_pos (bits : ℕ) (hb : 2 ≤ bits) : 1 ≤ maxIntOf bits := by
  unfold maxIntOf
  have h1 : 1 ≤ bits - 1 := by omega
  have h2 : (2 : ℤ) ^ 1 ≤ 2 ^ (bits - 1) := pow_le_pow_right (by norm_num) h1
  simp at h2
  omega

theorem clamp1_bounds (v : ℚ) : -1 ≤ clamp1 v ∧ clamp1 v ≤ 1 := by
  constructor
  · exact le_max_left _ _
  · exact max_le (by norm_num) (min_le_left _ _)

theorem quantCode_bounds (bits : ℕ) (hb : 2 ≤ bits) (v : ℚ) :
    -maxIntOf bits ≤ quantCode bits v ∧ quantCode bits v ≤ maxIntOf bits := by
  obtain ⟨hc1, hc2⟩ := clamp1_bounds v
  have hM : 1 ≤ maxIntOf bits := maxIntOf_pos bits hb
  have hMQ : (0 : ℚ) ≤ (maxIntOf bits : ℚ) := by exact_mod_cast le_of_lt (by omega : (0:ℤ) < maxIntOf bits)
  constructor
  · rw [quantCode, jsRound, Int.le_floor]
    push_cast
    nlinarith
  · rw [quantCode, jsRound]
    have hup : clamp1 v * (maxIntOf bits : ℚ) + 1 / 2 ≤ (maxIntOf bits : ℚ) + 1 / 2 := by
      nlinarith
    calc Int.floor (clamp1 v * (maxIntOf bits : ℚ) + 1 / 2)
        ≤ Int.floor ((maxIntOf bits : ℚ) + 1 / 2) := Int.floor_le_floor hup
      _ = maxIntOf bits + Int.floor ((1 : ℚ) / 2) := Int.floor_int_add _ _
      _ = maxIntOf bits := by norm_num

theorem reconstruct_bounds (bits : ℕ) (hb : 2 ≤ bits) (q : ℤ)
    (h1 : -maxIntOf bits ≤ q) (h2 : q ≤ maxIntOf bits) :
    -1 ≤ reconstruct bits q ∧ reconstruct bits q ≤ 1 := by
  have hM : 1 ≤ maxIntOf bits := maxIntOf_pos bits hb
  have hMQ : (0 : ℚ) < (maxIntOf bits : ℚ) := by exact_mod_cast (by omega : (0:ℤ) < maxIntOf bits)
  unfold reconstruct
  constructor
  · rw [le_div_iff hMQ]
    have : (-(maxIntOf bits) : ℚ) ≤ (q : ℚ) := by exact_mod_cast h1
    linarith
  · rw [div_le_one hMQ]
    exact_mod_cast h2

/-! ### Spectral analysis — AudioExplorer.tsx, Math/DSP helpers and SpectrumCanvas

The mutable `Float64Array` loops are translated into folds over `List ℝ`;
`re[i] = v` becomes `List.set`, out-of-bounds reads (which never occur in the
code's own uses) default to `0` via `List.getD`. -/

/-- `Math.clz32` restricted to the inputs the code produces (arguments in
`[1, 2^32)`): the count of leading zeros of the 32-bit representation. -/
def clz32 (x : ℕ) : ℕ := if x = 0 then 32 else 31 - Nat.log2 x

/-- `nextPow2(n) = 1 << (32 - Math.clz32(Math.max(1, n - 1)))`
(AudioExplorer.tsx lines 990-992).  Note `nextPow2 1 = 2`. -/
def nextPow2 (n : ℕ) : ℕ := 1 <<< (32 - clz32 (max 1 (n - 1)))

/-- `n` is a positive power of two (decidable characterization). -/
def isPow2 (n : ℕ) : Prop := n ≠ 0 ∧ 2 ^ Nat.log2 n = n

instance (n : ℕ) : Decidable (isPow2 n) := by
  unfold isPow2
  infer_instance

/-- Copy the first `min N (length x)` input samples into a zero buffer of
length `N`: `x = new Float64Array(N); for (i < copyCount) x[i] = samples[i]`
(AudioExplorer.tsx lines 341-343) and `re.set(realIn.subarray(0, min(N, len)))`
(line 1007). -/
def zeroPad (x : List ℝ) (N : ℕ) : List ℝ :=
  x.take (min N x.length) ++ List.replicate (N - min N x.length) 0

/-- `applyHann` (AudioExplorer.tsx lines 994-1000): multiply sample `n` by
`0.5 * (1 - cos(2π·n / (N - 1)))` where `N` is the array length. -/
noncomputable def applyHann (x : List ℝ) : List ℝ :=
  List.ofFn (fun n : Fin x.length =>
    x.get n * (0.5 * (1 - Real.cos (2 * Real.pi * (n : ℝ) / ((x.length : ℝ) - 1)))))

/-- `Math.hypot(a, b)`. -/
noncomputable def hypotR (a b : ℝ) : ℝ := Real.sqrt (a ^ 2 + b ^ 2)

/-- The inner `while (j & m) { j ^= m; m >>= 1 } j |= m` of the bit-reversal
permutation (AudioExplorer.tsx lines 1018-1023). -/
def revStep (j m : ℕ) : ℕ :=
  if h : j &&& m ≠ 0 then revStep (j ^^^ m) (m / 2) else j ||| m
termination_by m
decreasing_by
  have hm : m ≠ 0 := by
    intro h0
    exact h (by simp [h0])
  exact Nat.div_lt_self (Nat.pos_of_ne_zero hm) (by omega)

/-- Swap entries `i` and `j` of a list (the three-assignment swap of
AudioExplorer.tsx lines 1011-1016). -/
def swapAt2 (l : List ℝ) (i j : ℕ) : List ℝ :=
  (l.set i (l.getD j 0)).set j (l.getD i 0)

/-- One iteration of the bit-reversal `for` loop (AudioExplorer.tsx lines
1009-1024): conditionally swap `re`/`im` at `i` and `j`, then advance `j`. -/
def bitrevLoop (N : ℕ) (st : (List ℝ × List ℝ) × ℕ) (i : ℕ) : (List ℝ × List ℝ) × ℕ :=
  let re := st.1.1
  let im := st.1.2
  let j := st.2
  let p := if i < j then (swapAt2 re i j, swapAt2 im i j) else (re, im)
  (p, revStep j (N / 2))

/-- The whole bit-reversal permutation pass. -/
def bitrev (re im : List ℝ) (N : ℕ) : List ℝ × List ℝ :=
  ((List.range N).foldl (bitrevLoop N) ((re, im), 0)).1

/-- One butterfly of the inner `for (k = 0; k < half; k++)` loop
(AudioExplorer.tsx lines 1032-1044), including the twiddle update.  The state
is `(re, im, wr, wi)`; the sequential assignments of the source are mirrored
exactly (in particular `re[i0] += tr` reads `re[i0]` after `re[i1]` was set). -/
noncomputable def innerStep (wpr wpi : ℝ) (start half : ℕ)
    (st : List ℝ × List ℝ × ℝ × ℝ) (k : ℕ) : List ℝ × List ℝ × ℝ × ℝ :=
  let re := st.1
  let im := st.2.1
  let wr := st.2.2.1
  let wi := st.2.2.2
  let i0 := start + k
  let i1 := i0 + half
  let tr := wr * re.getD i1 0 - wi * im.getD i1 0
  let ti := wr * im.getD i1 0 + wi * re.getD i1 0
  let re1 := re.set i1 (re.getD i0 0 - tr)
  let im1 := im.set i1 (im.getD i0 0 - ti)
  let re2 := re1.set i0 (re1.getD i0 0 + tr)
  let im2 := im1.set i0 (im1.getD i0 0 + ti)
  (re2, im2, wr * wpr - wi * wpi, wr * wpi + wi * wpr)

/-- One block `for (start = 0; start < N; start += size)` body
(AudioExplorer.tsx lines 1030-1045): run the butterflies of a block with the
twiddle factor reset to `(1, 0)`. -/
noncomputable def blockLoop (wpr wpi : ℝ) (half : ℕ) (p : List ℝ × List ℝ)
    (start : ℕ) : List ℝ × List ℝ :=
  let st := (List.range half).foldl (innerStep wpr wpi start half) (p.1, p.2, 1, 0)
  (st.1, st.2.1)

/-- One stage `size = 2, 4, ..., N` of the FFT (AudioExplorer.tsx lines
1025-1046); `N` is a power of two and `size` divides `N`, so the block starts
are `0, size, ..., N - size`. -/
noncomputable def stage (N : ℕ) (p : List ℝ × List ℝ) (size : ℕ) : List ℝ × List ℝ :=
  let half := size / 2
  let theta := -(2 * Real.pi) / (size : ℝ)
  ((List.range (N / size)).map (fun b => b * size)).foldl
    (blockLoop (Real.cos theta) (Real.sin theta) half) p

/-- `fftComplex` (AudioExplorer.tsx lines 1003-1049): zero-pad to
`N = nextPow2(len)`, bit-reverse, then run the `log2 N` butterfly stages with
`size = 2^(s+1)`. -/
noncomputable def fftComplex (realIn : List ℝ) : List ℝ × List ℝ :=
  let N := nextPow2 realIn.length
  let p0 := bitrev (zeroPad realIn N) (List.replicate N 0) N
  ((List.range (Nat.log2 N)).map (fun s => 2 ^ (s + 1))).foldl (stage N) p0

/-- The two windowing choices of `SpectrumCanvas`. -/
inductive Window
  | hann
  | none

/-- The array handed to `fftComplex` by the `analyze` memo (AudioExplorer.tsx
lines 340-347): the zero-padded length-`N` segment, Hann-windowed on demand. -/
noncomputable def preFFT (samples : List ℝ) (N : ℕ) (w : Window) : List ℝ :=
  match w with
  | Window.hann => applyHann (zeroPad samples N)
  | Window.none => zeroPad samples N

/-- The magnitude computation (AudioExplorer.tsx lines 348-353):
`mags[k] = hypot(re[k], im[k])` for `k < floor(N/2)`, then `mags[k] = mags[k]*2/N`. -/
noncomputable def magsOf (p : List ℝ × List ℝ) (N : ℕ) : List ℝ :=
  (List.ofFn (fun k : Fin (N / 2) => hypotR (p.1.getD k 0) (p.2.getD k 0))).map
    (fun m => m * 2 / (N : ℝ))

/-- The full `analyze` computation of `SpectrumCanvas` (AudioExplorer.tsx
lines 339-354), producing the magnitude spectrum. -/
noncomputable def analyzeMags (samples : List ℝ) (N : ℕ) (w : Window) : List ℝ :=
  magsOf (fftComplex (preFFT samples N w)) N

/-- Modelled from the spec: the butterfly recurrence read literally in the
spec's stated order `re[i0]+=tr; im[i0]+=ti; re[i1]=re[i0]-tr` (and, by the
same pattern, `im[i1]=im[i0]-ti`), i.e. the even half is updated first and the
odd half is then computed from the already-updated even value.  This is the
comparison point for the refinement claim about the butterfly order. -/
noncomputable def specButterflySeq (wr wi re0 im0 re1 im1 : ℝ) : ℝ × ℝ × ℝ × ℝ :=
  let tr := wr * re1 - wi * im1
  let ti := wr * im1 + wi * re1
  let re0n := re0 + tr
  let im0n := im0 + ti
  let re1n := re0n - tr
  let im1n := im0n - ti
  (re0n, im0n, re1n, im1n)

/-! ### Helper lemmas for the spectral path -/

theorem getD_set_ne (l : List ℝ) (i j : ℕ) (a : ℝ) (h : i ≠ j) :
    (l.set i a).getD j 0 = l.getD j 0 := by
  simp [List.getD_eq_getElem?_getD, List.getElem?_set_ne h]

theorem foldl_pres {α β : Type} (P : α → Prop) (f : α → β → α)
    (hf : ∀ a b, P a → P (f a b)) :
    ∀ (l : List β) (a : α), P a → P (l.foldl f a) := by
  intro l
  induction l with
  | nil => intro a ha; exact ha
  | cons b bs ih => intro a ha; exact ih _ (hf a b ha)

theorem swapAt2_length (l : List ℝ) (i j : ℕ) : (swapAt2 l i j).length = l.length := by
  simp [swapAt2]

theorem zeroPad_length (x : List ℝ) (N : ℕ) : (zeroPad x N).length = N := by
  have h1 : min N x.length ≤ N := Nat.min_le_left _ _
  have h2 : min N x.length ≤ x.length := Nat.min_le_right _ _
  simp only [zeroPad, List.length_append, List.length_take, List.length_replicate]
  omega

theorem bitrev_lengths (re im : List ℝ) (N : ℕ) (hre : re.length = N) (him : im.length = N) :
    (bitrev re im N).1.length = N ∧ (bitrev re im N).2.length = N := by
  have h := foldl_pres (fun st : (List ℝ × List ℝ) × ℕ =>
      st.1.1.length = N ∧ st.1.2.length = N) (bitrevLoop N)
    (by
      intro st i hst
      unfold bitrevLoop
      by_cases hij : i < st.2
      · simp only [if_pos hij]
        exact ⟨by simp [swapAt2_length, hst.1], by simp [swapAt2_length, hst.2]⟩
      · simp only [if_neg hij]
        exact hst)
    (List.range N) ((re, im), 0) ⟨hre, him⟩
  exact h

theorem innerStep_lengths (wpr wpi : ℝ) (s hf : ℕ) (st : List ℝ × List ℝ × ℝ × ℝ) (k : ℕ) :
    (innerStep wpr wpi s hf st k).1.length = st.1.length ∧
    (innerStep wpr wpi s hf st k).2.1.length = st.2.1.length := by
  unfold innerStep
  simp

theorem blockLoop_lengths (wpr wpi : ℝ) (hf : ℕ) (p : List ℝ × List ℝ) (s : ℕ) :
    (blockLoop wpr wpi hf p s).1.length = p.1.length ∧
    (blockLoop wpr wpi hf p s).2.length = p.2.length := by
  unfold blockLoop
  have h := foldl_pres (fun st : List ℝ × List ℝ × ℝ × ℝ =>
      st.1.length = p.1.length ∧ st.2.1.length = p.2.length)
    (innerStep wpr wpi s hf)
    (by
      intro st k hst
      obtain ⟨h1, h2⟩ := innerStep_lengths wpr wpi s hf st k
      exact ⟨h1.trans hst.1, h2.trans hst.2⟩)
    (List.range hf) (p.1, p.2, 1, 0) ⟨rfl, rfl⟩
  exact h

theorem stage_lengths (N : ℕ) (p : List ℝ × List ℝ) (size : ℕ) :
    (stage N p size).1.length = p.1.length ∧ (stage N p size).2.length = p.2.length := by
  unfold stage
  exact foldl_pres (fun q : List ℝ × List ℝ =>
      q.1.length = p.1.length ∧ q.2.length = p.2.length)
    _
    (by
      intro q b hq
      obtain ⟨h1, h2⟩ := blockLoop_lengths (Real.cos (-(2 * Real.pi) / (size : ℝ)))
        (Real.sin (-(2 * Real.pi) / (size : ℝ))) (size / 2) q b
      exact ⟨h1.trans hq.1, h2.trans hq.2⟩)
    _ p ⟨rfl, rfl⟩

theorem fftComplex_lengths (x : List ℝ) :
    (fftComplex x).1.length = nextPow2 x.length ∧
    (fftComplex x).2.length = nextPow2 x.length := by
  unfold fftComplex
  have hb := bitrev_lengths (zeroPad x (nextPow2 x.length))
    (List.replicate (nextPow2 x.length) 0) (nextPow2 x.length)
    (zeroPad_length _ _) (by simp)
  exact foldl_pres (fun q : List ℝ × List ℝ =>
      q.1.length = nextPow2 x.length ∧ q.2.length = nextPow2 x.length)
    (stage (nextPow2 x.length))
    (by
      intro q b hq
      obtain ⟨h1, h2⟩ := stage_lengths (nextPow2 x.length) q b
      exact ⟨h1.trans hq.1, h2.trans hq.2⟩)
    _ _ hb

theorem nextPow2_eq (n : ℕ) (h : n ≤ 2 ^ 32) :
    nextPow2 n = 2 ^ (Nat.log2 (max 1 (n - 1)) + 1) := by
  have hm1 : 1 ≤ max 1 (n - 1) := le_max_left _ _
  have hm2 : max 1 (n - 1) < 2 ^ 32 := by
    have : n - 1 < 2 ^ 32 := by omega
    omega
  have hlog : Nat.log2 (max 1 (n - 1)) < 32 := by
    rw [Nat.log2_lt (by omega)]
    exact hm2
  unfold nextPow2 clz32
  rw [if_neg (by omega)]
  have : 32 - (31 - Nat.log2 (max 1 (n - 1))) = Nat.log2 (max 1 (n - 1)) + 1 := by omega
  rw [this, Nat.shiftLeft_eq, one_mul]

theorem nextPow2_ge (n : ℕ) (h : n ≤ 2 ^ 32) : n ≤ nextPow2 n := by
  rw [nextPow2_eq n h]
  rcases Nat.lt_or_ge n 2 with h1 | h1
  · calc n ≤ 1 := by omega
      _ ≤ 2 ^ (Nat.log2 (max 1 (n - 1)) + 1) := Nat.one_le_two_pow
  · have hmax : max 1 (n - 1) = n - 1 := Nat.max_eq_right (by omega)
    rw [hmax]
    have hlt := @Nat.lt_log2_self (n - 1)
    omega

theorem zeroPad_getD_lt (x : List ℝ) (N i : ℕ) (hN : x.length ≤ N) (hi : i < x.length) :
    (zeroPad x N).getD i 0 = x.getD i 0 := by
  unfold zeroPad
  rw [Nat.min_eq_right hN, List.take_length]
  simp [List.getD_eq_getElem?_getD, List.getElem?_append_left hi]

theorem zeroPad_getD_ge (x : List ℝ) (N i : ℕ) (hN : x.length ≤ N) (hi : x.length ≤ i) :
    (zeroPad x N).getD i 0 = 0 := by
  unfold zeroPad
  rw [Nat.min_eq_right hN, List.take_length]
  rw [List.getD_eq_getElem?_getD, List.getElem?_append_right hi, List.getElem?_replicate]
  by_cases hcase : i - x.length < N - x.length
  · rw [if_pos hcase]
    rfl
  · rw [if_neg hcase]
    rfl

/-- Ceilings of rational literals, reduced to floors for `norm_num`. -/
theorem ceil_eval (a : ℚ) : Int.ceil a = -Int.floor (-a) := by
  rw [Int.floor_neg]
  ring

theorem simulate_c4_eval : simulate [1 / 2] 1 1 8 0 1 = [(0, 64 / 127), (1, 64 / 127)] := by
  have hs : iStartOf 0 1 1 = 0 := by
    unfold iStartOf
    norm_num [ceil_eval]
  have he : iEndOf 1 1 1 = 1 := by
    unfold iEndOf
    norm_num
  unfold simulate
  rw [hs, he]
  have hrange : ((1 - 0 + 1 : ℤ).toNat) = 2 := rfl
  rw [hrange]
  have hr2 : List.range 2 = [0, 1] := rfl
  rw [hr2]
  have hp0 : samplePoint [1 / 2] 1 1 8 (0 + ((0 : ℕ) : ℤ)) = (0, 64 / 127) := by
    unfold samplePoint srcIndex quantCode reconstruct jsRound clamp1 maxIntOf
    norm_num [min_def, max_def]
  have hp1 : samplePoint [1 / 2] 1 1 8 (0 + ((1 : ℕ) : ℤ)) = (1, 64 / 127) := by
    unfold samplePoint srcIndex quantCode reconstruct jsRound clamp1 maxIntOf
    norm_num [min_def, max_def]
  simp only [List.map_cons, List.map_nil, hp0, hp1]

/-! ### Claim C1 — capture length and content -/

/-- C1: for every positive duration `d` and sample rate `r`, once the
accumulated chunk length reaches the target frame count `⌈d·r⌉`, the capture
concatenation resolves with a buffer of length exactly `⌈d·r⌉` — never more,
never less — equal to the chunks concatenated in arrival order with the final
chunk truncated (i.e. the `⌈d·r⌉`-prefix of the joined chunks). -/
theorem capture_buffer_exact (d r : ℚ) (chunks : List (List ℚ))
    (hd : 0 < d) (hr : 0 < r)
    (hacc : targetFrames d r ≤ (chunks.map List.length).sum) :
    (concatTrim chunks (targetFrames d r)).length = targetFrames d r ∧
    concatTrim chunks (targetFrames d r) = chunks.join.take (targetFrames d r) := by
  obtain ⟨h1, h2⟩ := concatTrim_spec chunks (targetFrames d r) hacc
  exact ⟨h2, h1⟩

/-- Witness for `capture_buffer_exact`: duration 1/2 s at 9 Hz, target 5
frames, three chunks totalling 6 samples. -/
theorem capture_buffer_exact_witness :
    (0 : ℚ) < 1 / 2 ∧ (0 : ℚ) < 9 ∧
    targetFrames (1 / 2) 9 ≤ (([[1, 2], [3, 4], [5, 6]] : List (List ℚ)).map List.length).sum ∧
    ((concatTrim ([[1, 2], [3, 4], [5, 6]] : List (List ℚ)) (targetFrames (1 / 2) 9)).length
        = targetFrames (1 / 2) 9 ∧
      concatTrim ([[1, 2], [3, 4], [5, 6]] : List (List ℚ)) (targetFrames (1 / 2) 9)
        = ([[1, 2], [3, 4], [5, 6]] : List (List ℚ)).join.take (targetFrames (1 / 2) 9)) :=
  ⟨by norm_num, by norm_num,
   by
     have h : targetFrames (1 / 2) 9 = 5 := by
       unfold targetFrames
       norm_num [ceil_eval]
       rfl
     rw [h]
     decide,
   capture_buffer_exact (1 / 2) 9 [[1, 2], [3, 4], [5, 6]]
     (by norm_num) (by norm_num)
     (by
       have h : targetFrames (1 / 2) 9 = 5 := by
         unfold targetFrames
         norm_num [ceil_eval]
         rfl
       rw [h]
       decide)⟩

/-! ### Claim C4 — resampling and quantization formula -/

/-- C4 counterexample: at the right edge of the window the code clamps the
source index with `Math.min(samples.length - 1, …)`; the claim's un-clamped
index `round(i·sourceRate/targetRate)` falls outside the buffer.  With
`samples = [1/2]`, `sourceRate = targetRate = 1`, window `[0, 1]`, output
index `i = 1`: the code reads index `0` and produces `64/127`, while the
claim's formula reads (nonexistent) index `1`, whose default read gives `0`. -/
theorem simulate_unclamped_index_counterexample :
    ((simulate [1 / 2] 1 1 8 0 1).getD 1 (0, 0)).2 = 64 / 127 ∧
    reconstruct 8 (quantCode 8 (([1 / 2] : List ℚ).getD (jsRound ((1 : ℚ) * 1 / 1)).toNat 0)) = 0 ∧
    (64 / 127 : ℚ) ≠ 0 := by
  refine ⟨?_, ?_, by norm_num⟩
  · rw [simulate_c4_eval]
    rfl
  · have hj : jsRound ((1 : ℚ) * 1 / 1) = 1 := by
      unfold jsRound
      norm_num
    rw [hj]
    unfold reconstruct quantCode jsRound clamp1 maxIntOf
    norm_num

/-- C4 amended: every output point `i` of `simulate` is obtained by mapping
`i` to the source index `min(length - 1, round(i·sourceRate/targetRate))`
(nearest neighbour, additionally clamped to the last valid index), clamping
the source amplitude to `[-1, 1]`, quantizing with
`code = round(amplitude·(2^(bits-1) - 1))` and reconstructing with
`amplitude = code/(2^(bits-1) - 1)`. -/
theorem simulate_point_formula (samples : List ℚ) (sr tr : ℚ) (bits : ℕ) (cs es : ℕ)
    (k : ℕ) (hk : k < (simulate samples sr tr bits cs es).length) :
    (simulate samples sr tr bits cs es).getD k (0, 0) =
      (((iStartOf cs sr tr + k : ℤ) : ℚ) / tr,
       ((jsRound (clamp1 (samples.getD
           (min ((samples.length : ℤ) - 1)
             (jsRound (((iStartOf cs sr tr + k : ℤ) : ℚ) * sr / tr))).toNat 0)
         * (maxIntOf bits : ℚ)) : ℤ) : ℚ) / (maxIntOf bits : ℚ)) := by
  have hk2 : k < (iEndOf es sr tr - iStartOf cs sr tr + 1).toNat := by
    simpa only [simulate, List.length_map, List.length_range] using hk
  unfold simulate
  rw [List.getD_eq_getElem?_getD, List.getElem?_map, List.getElem?_range hk2]
  rfl

/-- Witness for `simulate_point_formula` at the concrete input of the
counterexample, output index 0. -/
theorem simulate_point_formula_witness :
    0 < (simulate [1 / 2] 1 1 8 0 1).length ∧
    (simulate ([1 / 2] : List ℚ) 1 1 8 0 1).getD 0 (0, 0) =
      (((iStartOf 0 1 1 + (0 : ℕ) : ℤ) : ℚ) / 1,
       ((jsRound (clamp1 (([1 / 2] : List ℚ).getD
           (min ((([1 / 2] : List ℚ).length : ℤ) - 1)
             (jsRound (((iStartOf 0 1 1 + (0 : ℕ) : ℤ) : ℚ) * 1 / 1))).toNat 0)
         * (maxIntOf 8 : ℚ)) : ℤ) : ℚ) / (maxIntOf 8 : ℚ)) :=
  ⟨by
     rw [simulate_c4_eval]
     decide,
   simulate_point_formula [1 / 2] 1 1 8 0 1 0
     (by
       rw [simulate_c4_eval]
       decide)⟩

/-! ### Claim C7 — quantization code and reconstruction ranges -/

/-- C7: for every bit depth `b ≥ 2` (the contract range starts at 2) and
every input amplitude, the quantization code lies in the symmetric range
`[-(2^(b-1) - 1), 2^(b-1) - 1]` and the reconstructed amplitude lies in
`[-1, 1]`. -/
theorem quantization_ranges (bits : ℕ) (hb : 2 ≤ bits) (v : ℚ) :
    -maxIntOf bits ≤ quantCode bits v ∧ quantCode bits v ≤ maxIntOf bits ∧
    -1 ≤ reconstruct bits (quantCode bits v) ∧ reconstruct bits (quantCode bits v) ≤ 1 := by
  obtain ⟨h1, h2⟩ := quantCode_bounds bits hb v
  obtain ⟨h3, h4⟩ := reconstruct_bounds bits hb (quantCode bits v) h1 h2
  exact ⟨h1, h2, h3, h4⟩

/-- Witness for `quantization_ranges` at 8 bits and amplitude 5 (clamped to 1). -/
theorem quantization_ranges_witness :
    2 ≤ 8 ∧
    (-maxIntOf 8 ≤ quantCode 8 5 ∧ quantCode 8 5 ≤ maxIntOf 8 ∧
     -1 ≤ reconstruct 8 (quantCode 8 5) ∧ reconstruct 8 (quantCode 8 5) ≤ 1) :=
  ⟨by norm_num, quantization_ranges 8 (by norm_num) 5⟩

/-! ### Claim C8 — parameter validation -/

/-- C8 counterexample: `bits = 25` lies outside the contract range `[2, 24]`,
yet `simulate` does not fail: it computes the full two-point trace for the
window `[0, 1]` at unit rates, with amplitude `1` (`maxInt = 2^24 - 1`). -/
theorem simulate_out_of_range_bits_counterexample :
    (simulate [1] 1 1 25 0 1).length = 2 ∧
    ((simulate [1] 1 1 25 0 1).getD 0 (0, 0)).2 = 1 := by
  have heval : simulate [1] 1 1 25 0 1 = [(0, 1), (1, 1)] := by
    have hs : iStartOf 0 1 1 = 0 := by
      unfold iStartOf
      norm_num [ceil_eval]
    have he : iEndOf 1 1 1 = 1 := by
      unfold iEndOf
      norm_num
    unfold simulate
    rw [hs, he]
    have hrange : ((1 - 0 + 1 : ℤ).toNat) = 2 := rfl
    rw [hrange]
    have hr2 : List.range 2 = [0, 1] := rfl
    rw [hr2]
    have hp0 : samplePoint [1] 1 1 25 (0 + ((0 : ℕ) : ℤ)) = (0, 1) := by
      unfold samplePoint srcIndex quantCode reconstruct jsRound clamp1 maxIntOf
      norm_num [min_def, max_def]
    have hp1 : samplePoint [1] 1 1 25 (0 + ((1 : ℕ) : ℤ)) = (1, 1) := by
      unfold samplePoint srcIndex quantCode reconstruct jsRound clamp1 maxIntOf
      norm_num [min_def, max_def]
    simp only [List.map_cons, List.map_nil, hp0, hp1]
  rw [heval]
  exact ⟨rfl, rfl⟩

/-- C8 amended: `simulate` performs no parameter validation and never fails:
for every `bits` and `target_rate` (in range or not) it produces the complete
trace, one point per output index from `iStart` to `iEnd`. -/
theorem simulate_total_length (samples : List ℚ) (sr tr : ℚ) (bits : ℕ) (cs es : ℕ) :
    (simulate samples sr tr bits cs es).length
      = (iEndOf es sr tr - iStartOf cs sr tr + 1).toNat := by
  simp [simulate]

/-! ### Claim C9 — 100 ms window at 8000 Hz, 8 bits -/

/-- C9 counterexample: the sampling loop is inclusive on both ends
(`for (i = iStart; i <= iEnd; i++)`), so a 100 ms window starting at an exact
output-sample boundary yields 801 points, not 800.  Concretely: a buffer of
one sample at 10 Hz (window `[0 s, 0.1 s]`), target rate 8000 Hz, 8 bits. -/
theorem simulate_801_points_counterexample :
    (simulate [0] 10 8000 8 0 1).length = 801 ∧
    (simulate [0] 10 8000 8 0 1).length ≠ 800 := by
  have h : (simulate [0] 10 8000 8 0 1).length = 801 := by
    have hlen : (simulate [0] 10 8000 8 0 1).length
        = (iEndOf 1 10 8000 - iStartOf 0 10 8000 + 1).toNat := by
      simp [simulate]
    rw [hlen]
    have h1 : iEndOf 1 10 8000 = 800 := by
      unfold iEndOf
      norm_num
    have h2 : iStartOf 0 10 8000 = 0 := by
      unfold iStartOf
      norm_num [ceil_eval]
    rw [h1, h2]
    rfl
  exact ⟨h, by omega⟩

/-- C9 amended: over a 100 ms window, `simulate` at 8000 Hz / 8 bits yields
`⌊t0·8000⌋ + 801 - ⌈t0·8000⌉` points — 801 when the window start `t0` is an
exact multiple of the output sample period, 800 otherwise — and every output
amplitude is one of the 255 levels `q/127` with `q` an integer in `[-127, 127]`. -/
theorem simulate_100ms_trace (samples : List ℚ) (sr : ℚ) (cs es : ℕ)
    (hsr : 0 < sr)
    (hwin : (es : ℚ) / sr = (cs : ℚ) / sr + 1 / 10) :
    ((simulate samples sr 8000 8 cs es).length
        = if Int.ceil ((cs : ℚ) / sr * 8000) = Int.floor ((cs : ℚ) / sr * 8000)
          then 801 else 800) ∧
    ∀ p ∈ simulate samples sr 8000 8 cs es,
      ∃ q : ℤ, -127 ≤ q ∧ q ≤ 127 ∧ p.2 = (q : ℚ) / 127 := by
  constructor
  · have hEnd : iEndOf es sr 8000 = Int.floor ((cs : ℚ) / sr * 8000) + 800 := by
      unfold iEndOf
      have hcast : (es : ℚ) / sr * 8000 = (cs : ℚ) / sr * 8000 + ((800 : ℤ) : ℚ) := by
        rw [hwin]
        push_cast
        ring
      rw [hcast, Int.floor_add_int]
    have hlen : (simulate samples sr 8000 8 cs es).length
        = (iEndOf es sr 8000 - iStartOf cs sr 8000 + 1).toNat := by
      simp [simulate]
    rw [hlen, hEnd]
    unfold iStartOf
    have hfc : Int.floor ((cs : ℚ) / sr * 8000) ≤ Int.ceil ((cs : ℚ) / sr * 8000) :=
      Int.floor_le_ceil _
    have hcf : Int.ceil ((cs : ℚ) / sr * 8000) ≤ Int.floor ((cs : ℚ) / sr * 8000) + 1 :=
      Int.ceil_le_floor_add_one _
    by_cases heq : Int.ceil ((cs : ℚ) / sr * 8000) = Int.floor ((cs : ℚ) / sr * 8000)
    · rw [if_pos heq, heq]
      omega
    · rw [if_neg heq]
      omega
  · intro p hp
    unfold simulate at hp
    rw [List.mem_map] at hp
    obtain ⟨k, hk, hpk⟩ := hp
    have hb := quantCode_bounds 8 (by norm_num) (samples.getD
      (srcIndex samples.length sr 8000 (iStartOf cs sr 8000 + (k : ℤ))).toNat 0)
    have hm : maxIntOf 8 = 127 := by norm_num [maxIntOf]
    rw [hm] at hb
    refine ⟨quantCode 8 (samples.getD
      (srcIndex samples.length sr 8000 (iStartOf cs sr 8000 + (k : ℤ))).toNat 0),
      hb.1, hb.2, ?_⟩
    rw [← hpk]
    unfold samplePoint reconstruct
    rw [hm]
    norm_num

/-- Witness for `simulate_100ms_trace`: one sample at 10 Hz, window `[0, 0.1 s]`. -/
theorem simulate_100ms_trace_witness :
    (0 : ℚ) < 10 ∧ ((1 : ℕ) : ℚ) / 10 = ((0 : ℕ) : ℚ) / 10 + 1 / 10 ∧
    (((simulate [0] 10 8000 8 0 1).length
        = if Int.ceil (((0 : ℕ) : ℚ) / 10 * 8000) = Int.floor (((0 : ℕ) : ℚ) / 10 * 8000)
          then 801 else 800) ∧
     ∀ p ∈ simulate [0] 10 8000 8 0 1,
       ∃ q : ℤ, -127 ≤ q ∧ q ≤ 127 ∧ p.2 = (q : ℚ) / 127) :=
  ⟨by norm_num, by norm_num, simulate_100ms_trace [0] 10 0 1 (by norm_num) (by norm_num)⟩

theorem applyHann_getD (x : List ℝ) (n : ℕ) (hn : n < x.length) :
    (applyHann x).getD n 0 =
      x.getD n 0 * (0.5 * (1 - Real.cos (2 * Real.pi * (n : ℝ) / ((x.length : ℝ) - 1)))) := by
  unfold applyHann
  have hlen : n < (List.ofFn (fun m : Fin x.length =>
      x.get m * (0.5 * (1 - Real.cos (2 * Real.pi * (m : ℝ) / ((x.length : ℝ) - 1)))))).length := by
    simpa using hn
  rw [List.getD_eq_getElem?_getD, List.getElem?_eq_getElem hlen]
  simp only [List.getElem_ofFn, Option.getD_some, List.get_eq_getElem]
  rw [List.getD_eq_getElem?_getD, List.getElem?_eq_getElem hn]
  rfl

theorem applyHann_length (x : List ℝ) : (applyHann x).length = x.length := by
  simp [applyHann]

theorem preFFT_length (samples : List ℝ) (N : ℕ) (w : Window) :
    (preFFT samples N w).length = N := by
  cases w with
  | hann => simp [preFFT, applyHann_length, zeroPad_length]
  | none => simp [preFFT, zeroPad_length]

/-! ### Claim C10 — fftComplex totality, padding and output shape -/

/-- C10: for every input of length `n ≥ 1` (within the 32-bit range that
`Math.clz32` operates on, as for any JavaScript typed array), `fftComplex` is
total — the embedding is a plain function with no failure path — it operates
on the input zero-padded to length `nextPow2 n`, and both output arrays have
length exactly `nextPow2 n`: a non-power-of-two analysis length is silently
rounded up to the next power of two instead of being reported as an error. -/
theorem fftComplex_total_shape (x : List ℝ) (hx : 1 ≤ x.length)
    (hx32 : x.length ≤ 2 ^ 32) :
    (fftComplex x).1.length = nextPow2 x.length ∧
    (fftComplex x).2.length = nextPow2 x.length ∧
    (zeroPad x (nextPow2 x.length)).length = nextPow2 x.length ∧
    (∀ i, i < x.length → (zeroPad x (nextPow2 x.length)).getD i 0 = x.getD i 0) ∧
    (∀ i, x.length ≤ i → (zeroPad x (nextPow2 x.length)).getD i 0 = 0) := by
  obtain ⟨h1, h2⟩ := fftComplex_lengths x
  have hge := nextPow2_ge x.length hx32
  exact ⟨h1, h2, zeroPad_length _ _,
    fun i hi => zeroPad_getD_lt x _ i hge hi,
    fun i hi => zeroPad_getD_ge x _ i hge hi⟩

/-- Witness for `fftComplex_total_shape` on the one-sample buffer `[1]`. -/
theorem fftComplex_total_shape_witness :
    (1 ≤ ([1] : List ℝ).length ∧ ([1] : List ℝ).length ≤ 2 ^ 32) ∧
    ((fftComplex [1]).1.length = nextPow2 ([1] : List ℝ).length ∧
     (fftComplex [1]).2.length = nextPow2 ([1] : List ℝ).length ∧
     (zeroPad [1] (nextPow2 ([1] : List ℝ).length)).length
        = nextPow2 ([1] : List ℝ).length ∧
     (∀ i, i < ([1] : List ℝ).length →
        (zeroPad [1] (nextPow2 ([1] : List ℝ).length)).getD i 0
          = ([1] : List ℝ).getD i 0) ∧
     (∀ i, ([1] : List ℝ).length ≤ i →
        (zeroPad [1] (nextPow2 ([1] : List ℝ).length)).getD i 0 = 0)) :=
  ⟨⟨by norm_num, by norm_num⟩,
   fftComplex_total_shape [1] (by norm_num) (by norm_num)⟩

/-! ### Claim C3 — behaviour at non-power-of-two fft sizes -/

/-- C3 counterexample: `fft_size = 3` is not a positive power of two, yet the
analysis does not fail — there is no `InvalidFftSize` (or any other) error
path anywhere in the code — and a magnitude array of length `⌊3/2⌋ = 1` is
computed and returned. -/
theorem analyze_nonpow2_counterexample :
    ¬ isPow2 3 ∧ (analyzeMags [1] 3 Window.none).length = 1 := by
  constructor
  · simp [isPow2, Nat.log2]
  · simp [analyzeMags, magsOf]

/-- C3 amended: `analyze` performs no power-of-two validation and never
fails: for a non-power-of-two `fft_size` it still returns a magnitude array,
of length `⌊fft_size/2⌋`, the FFT having silently zero-padded its input to
`nextPow2 fft_size`. -/
theorem analyze_nonpow2_silent (samples : List ℝ) (N : ℕ) (w : Window)
    (hN : ¬ isPow2 N) :
    (analyzeMags samples N w).length = N / 2 ∧
    (fftComplex (preFFT samples N w)).1.length = nextPow2 N := by
  constructor
  · simp [analyzeMags, magsOf]
  · rw [(fftComplex_lengths (preFFT samples N w)).1, preFFT_length]

/-- Witness for `analyze_nonpow2_silent` at `fft_size = 3`. -/
theorem analyze_nonpow2_silent_witness :
    ¬ isPow2 3 ∧
    ((analyzeMags [1] 3 Window.hann).length = 3 / 2 ∧
     (fftComplex (preFFT [1] 3 Window.hann)).1.length = nextPow2 3) :=
  ⟨by simp [isPow2, Nat.log2],
   analyze_nonpow2_silent [1] 3 Window.hann (by simp [isPow2, Nat.log2])⟩

/-! ### Claim C2 — magnitude spectrum length and values -/

/-- C2: for every power-of-two `fft_size N`, every buffer and window, the
magnitude array has length exactly `N/2`, and bin `k < N/2` equals
`2·hypot(re[k], im[k])/N` where `(re, im)` is the FFT of the windowed,
zero-padded segment. -/
theorem analyze_mags_formula (samples : List ℝ) (N : ℕ) (w : Window)
    (hN : isPow2 N) :
    (analyzeMags samples N w).length = N / 2 ∧
    ∀ k, k < N / 2 →
      (analyzeMags samples N w).getD k 0 =
        2 * hypotR ((fftComplex (preFFT samples N w)).1.getD k 0)
            ((fftComplex (preFFT samples N w)).2.getD k 0) / (N : ℝ) := by
  constructor
  · simp [analyzeMags, magsOf]
  · intro k hk
    unfold analyzeMags magsOf
    have hlen : k < ((List.ofFn (fun j : Fin (N / 2) =>
        hypotR ((fftComplex (preFFT samples N w)).1.getD j 0)
          ((fftComplex (preFFT samples N w)).2.getD j 0))).map
        (fun m => m * 2 / (N : ℝ))).length := by
      simp [hk]
    rw [List.getD_eq_getElem?_getD, List.getElem?_eq_getElem hlen]
    simp only [List.getElem_map, List.getElem_ofFn, Option.getD_some]
    ring

/-- Witness for `analyze_mags_formula` at `N = 2` on the buffer `[1]`. -/
theorem analyze_mags_formula_witness :
    isPow2 2 ∧
    ((analyzeMags [1] 2 Window.none).length = 2 / 2 ∧
     ∀ k, k < 2 / 2 →
      (analyzeMags [1] 2 Window.none).getD k 0 =
        2 * hypotR ((fftComplex (preFFT [1] 2 Window.none)).1.getD k 0)
            ((fftComplex (preFFT [1] 2 Window.none)).2.getD k 0) / ((2 : ℕ) : ℝ)) :=
  ⟨⟨by norm_num, by simp [Nat.log2]⟩,
   analyze_mags_formula [1] 2 Window.none ⟨by norm_num, by simp [Nat.log2]⟩⟩

/-! ### Claim C6 — Hann windowing before the FFT -/

/-- C6: when `analyze` runs with `window = hann`, the array transformed by the
FFT is the segment with sample `n` multiplied by
`0.5·(1 - cos(2π·n/(N - 1)))`, applied before `fftComplex`. -/
theorem analyze_hann_windowing (samples : List ℝ) (N n : ℕ) (hn : n < N) :
    analyzeMags samples N Window.hann
        = magsOf (fftComplex (applyHann (zeroPad samples N))) N ∧
    (applyHann (zeroPad samples N)).getD n 0
        = (zeroPad samples N).getD n 0 *
            (0.5 * (1 - Real.cos (2 * Real.pi * (n : ℝ) / ((N : ℝ) - 1)))) := by
  refine ⟨rfl, ?_⟩
  have hlen : n < (zeroPad samples N).length := by
    rw [zeroPad_length]
    exact hn
  rw [applyHann_getD (zeroPad samples N) n hlen, zeroPad_length]

/-- Witness for `analyze_hann_windowing` at `N = 2`, `n = 0` on `[1]`. -/
theorem analyze_hann_windowing_witness :
    0 < 2 ∧
    (analyzeMags [1] 2 Window.hann
        = magsOf (fftComplex (applyHann (zeroPad [1] 2))) 2 ∧
     (applyHann (zeroPad [1] 2)).getD 0 0
        = (zeroPad [1] 2).getD 0 0 *
            (0.5 * (1 - Real.cos (2 * Real.pi * ((0 : ℕ) : ℝ) / (((2 : ℕ) : ℝ) - 1))))) :=
  ⟨by norm_num, analyze_hann_windowing [1] 2 0 (by norm_num)⟩

/-! ### Claim C5 — butterfly update order and twiddle recurrence -/

/-- C5 counterexample: the code writes `re[i1] = re[i0] - tr` BEFORE updating
`re[i0]`, whereas the spec's literal order `re[i0]+=tr; im[i0]+=ti;
re[i1]=re[i0]-tr` updates the even half first, so its odd output collapses to
the old even value.  At `wr = 1`, `wi = 0`, `re = [0, 1]`, `im = [0, 0]`,
`start = 0`, `half = 1`, `k = 0` the code's odd output is `-1` while the
spec-literal order yields `0`. -/
theorem butterfly_order_counterexample :
    (innerStep 1 0 0 1 ([0, 1], [0, 0], 1, 0) 0).1.getD 1 0 = -1 ∧
    (specButterflySeq 1 0 0 0 1 0).2.2.1 = 0 ∧
    ((-1 : ℝ) ≠ 0) := by
  refine ⟨?_, ?_, by norm_num⟩
  · unfold innerStep
    norm_num
  · unfold specButterflySeq
    norm_num

/-- C5 amended: each butterfly computes the odd-half twiddle product
`tr = wr·re[i1] - wi·im[i1]`, `ti = wr·im[i1] + wi·re[i1]`, writes
`re[i1] = re[i0] - tr` and `im[i1] = im[i0] - ti` from the not-yet-updated
even values, then updates `re[i0] += tr`, `im[i0] += ti`; the twiddle factor
advances through `wr' = wr·cosθ - wi·sinθ`, `wi' = wr·sinθ + wi·cosθ` instead
of fresh trigonometric evaluations per butterfly. -/
theorem butterfly_step_characterization (t wr wi : ℝ) (re im : List ℝ)
    (start half k : ℕ) (hhalf : 0 < half) :
    innerStep (Real.cos t) (Real.sin t) start half (re, im, wr, wi) k =
      ((re.set (start + k + half)
          (re.getD (start + k) 0
            - (wr * re.getD (start + k + half) 0 - wi * im.getD (start + k + half) 0))).set
        (start + k)
        (re.getD (start + k) 0
          + (wr * re.getD (start + k + half) 0 - wi * im.getD (start + k + half) 0)),
       (im.set (start + k + half)
          (im.getD (start + k) 0
            - (wr * im.getD (start + k + half) 0 + wi * re.getD (start + k + half) 0))).set
        (start + k)
        (im.getD (start + k) 0
          + (wr * im.getD (start + k + half) 0 + wi * re.getD (start + k + half) 0)),
       wr * Real.cos t - wi * Real.sin t,
       wr * Real.sin t + wi * Real.cos t) := by
  simp only [innerStep]
  have hne : start + k + half ≠ start + k := by omega
  rw [getD_set_ne re (start + k + half) (start + k) _ hne,
    getD_set_ne im (start + k + half) (start + k) _ hne]

/-- Witness for `butterfly_step_characterization` at `θ = 0`, `wr = 1`,
`wi = 0`, `re = [0, 1]`, `im = [0, 0]`, `start = 0`, `half = 1`, `k = 0`. -/
theorem butterfly_step_characterization_witness :
    0 < 1 ∧
    innerStep (Real.cos 0) (Real.sin 0) 0 1 (([0, 1] : List ℝ), ([0, 0] : List ℝ), 1, 0) 0 =
      ((([0, 1] : List ℝ).set (0 + 0 + 1)
          (([0, 1] : List ℝ).getD (0 + 0) 0
            - (1 * ([0, 1] : List ℝ).getD (0 + 0 + 1) 0
              - 0 * ([0, 0] : List ℝ).getD (0 + 0 + 1) 0))).set
        (0 + 0)
        (([0, 1] : List ℝ).getD (0 + 0) 0
          + (1 * ([0, 1] : List ℝ).getD (0 + 0 + 1) 0
            - 0 * ([0, 0] : List ℝ).getD (0 + 0 + 1) 0)),
       (([0, 0] : List ℝ).set (0 + 0 + 1)
          (([0, 0] : List ℝ).getD (0 + 0) 0
            - (1 * ([0, 0] : List ℝ).getD (0 + 0 + 1) 0
              + 0 * ([0, 1] : List ℝ).getD (0 + 0 + 1) 0))).set
        (0 + 0)
        (([0, 0] : List ℝ).getD (0 + 0) 0
          + (1 * ([0, 0] : List ℝ).getD (0 + 0 + 1) 0
            + 0 * ([0, 1] : List ℝ).getD (0 + 0 + 1) 0)),
       1 * Real.cos 0 - 0 * Real.sin 0,
       1 * Real.sin 0 + 0 * Real.cos 0) :=
  ⟨by norm_num,
   butterfly_step_characterization 0 1 0 [0, 1] [0, 0] 0 1 0 (by norm_num)⟩

end AudioPipeline
